import Mathlib

/-!
Shallow embedding of the retrieval orchestration core of the rag-lab
repository (backend/techniques/: fusion.py, subquery.py, graph_rag.py,
hyde_rag.py, reranking_rag.py, adaptive/), together with proofs about the
embedded functions.

Conventions of the embedding:
- Python floats (similarity scores, RRF scores) are modelled as rationals.
- Python dicts (including collections.defaultdict) are modelled as
  insertion-ordered association lists: updating an existing key keeps its
  position, a new key is appended at the end, exactly as CPython dicts do.
- Python's sorted(..., key=..., reverse=True) is a stable descending sort;
  it is modelled by sortDescBy, a stable-by-construction insertion sort
  (stable sorts for a total preorder are extensionally unique, so this is
  a faithful model; sortedness and stability are proved below).
- Python sets are modelled as Finset String.
- External calls that may raise (the text-generation service behind
  core.llm.ainvoke_smart, which propagates non-rate-limit errors and
  raises RuntimeError on key exhaustion) are modelled by an explicit
  Except Unit argument supplying the call's behaviour; a raising call is
  the error case, and the embedded function propagates it exactly where
  the Python function has no try/except.
-/

namespace RagLab

/-- Passage model of langchain_core.documents.Document as used by the
techniques: page_content is the identity key for dedup/fusion, metadata
stands for the free-form metadata dict. -/
structure Document where
  page_content : String
  metadata : String
deriving DecidableEq, Repr

/-- Scores are Python floats in the source; modelled as rationals. -/
abbrev Score := ℚ

/-! Association lists modelling insertion-ordered Python dicts. -/

/-- Python dict lookup d.get(k): first (unique) binding of the key. -/
def alistGet? {β : Type} : List (String × β) → String → Option β
  | [], _ => none
  | (k', v) :: t, k => if k' == k then some v else alistGet? t k

/-- Python dict assignment d[k] = v: update in place if the key exists
(keeping its position), otherwise append the new binding at the end. -/
def alistSet {β : Type} : List (String × β) → String → β → List (String × β)
  | [], k, v => [(k, v)]
  | (k', v') :: t, k, v => if k' == k then (k', v) :: t else (k', v') :: alistSet t k v

theorem alistGet?_alistSet {β : Type} (m : List (String × β)) (k : String) (v : β)
    (c : String) :
    alistGet? (alistSet m k v) c = if k = c then some v else alistGet? m c := by
  induction m with
  | nil =>
    simp only [alistSet, alistGet?]
    by_cases h : k = c <;> simp [h]
  | cons kv t ih =>
    obtain ⟨k', v'⟩ := kv
    simp only [alistSet]
    by_cases hk : k' = k
    · subst hk
      by_cases h : k' = c <;> simp [alistGet?, h]
    · simp only [beq_iff_eq, hk, if_false, alistGet?]
      by_cases h : k' = c
      · subst h
        have hkc : ¬ k = k' := fun hh => hk hh.symm
        simp [hkc]
      · simp [h, ih]

theorem keys_alistSet {β : Type} (m : List (String × β)) (k : String) (v : β) :
    (alistSet m k v).map Prod.fst =
      if k ∈ m.map Prod.fst then m.map Prod.fst else m.map Prod.fst ++ [k] := by
  induction m with
  | nil => simp [alistSet]
  | cons kv t ih =>
    obtain ⟨k', v'⟩ := kv
    simp only [alistSet]
    by_cases hk : k' = k
    · subst hk
      simp
    · have hk2 : ¬ k = k' := fun h => hk h.symm
      simp only [beq_iff_eq, hk, if_false, List.map_cons, ih]
      by_cases h : k ∈ t.map Prod.fst <;> simp [h, hk2]

theorem length_alistSet {β : Type} (m : List (String × β)) (k : String) (v : β) :
    (alistSet m k v).length =
      if k ∈ m.map Prod.fst then m.length else m.length + 1 := by
  have h := congrArg List.length (keys_alistSet m k v)
  simp only [List.length_map] at h
  by_cases hm : k ∈ m.map Prod.fst <;> simp [hm] at h <;> simp [hm, h]

theorem alistGet?_isSome_iff_mem_keys {β : Type} (m : List (String × β)) (c : String) :
    (alistGet? m c).isSome ↔ c ∈ m.map Prod.fst := by
  induction m with
  | nil => simp [alistGet?]
  | cons kv t ih =>
    obtain ⟨k', v'⟩ := kv
    simp only [alistGet?, List.map_cons, List.mem_cons]
    by_cases h : k' = c
    · simp [h]
    · have h2 : ¬ c = k' := fun hh => h hh.symm
      simp [h, h2, ih]

/-! Stable descending sort, the model of sorted(..., key=..., reverse=True). -/

/-- Insert x into l, skipping exactly the elements with strictly larger
key, so that x lands before every element with an equal or smaller key:
the insertion underlying a stable descending insertion sort. -/
def insertDescBy {α : Type} (key : α → Score) (x : α) : List α → List α
  | [] => [x]
  | y :: l => if key x < key y then y :: insertDescBy key x l else x :: y :: l

/-- Stable descending insertion sort by a rational key; extensionally
equal to Python's stable sorted(..., key=..., reverse=True). -/
def sortDescBy {α : Type} (key : α → Score) : List α → List α
  | [] => []
  | x :: l => insertDescBy key x (sortDescBy key l)

theorem mem_insertDescBy {α : Type} (key : α → Score) (x : α) (l : List α) (a : α) :
    a ∈ insertDescBy key x l ↔ a = x ∨ a ∈ l := by
  induction l with
  | nil => simp [insertDescBy]
  | cons y t ih =>
    simp only [insertDescBy]
    by_cases h : key x < key y
    · simp only [h, if_true, List.mem_cons, ih]
      tauto
    · simp only [h, if_false, List.mem_cons]

theorem pairwise_insertDescBy {α : Type} (key : α → Score) (x : α) (l : List α)
    (hl : l.Pairwise (fun a b => key b ≤ key a)) :
    (insertDescBy key x l).Pairwise (fun a b => key b ≤ key a) := by
  induction l with
  | nil =>
    show ([x]).Pairwise _
    exact List.pairwise_singleton _ x
  | cons y t ih =>
    rw [List.pairwise_cons] at hl
    simp only [insertDescBy]
    by_cases h : key x < key y
    · simp only [h, if_true, List.pairwise_cons]
      refine ⟨?_, ih hl.2⟩
      intro a ha
      rcases (mem_insertDescBy key x t a).1 ha with rfl | ha
      · exact le_of_lt h
      · exact hl.1 a ha
    · have hyx : key y ≤ key x := not_lt.1 h
      simp only [h, if_false, List.pairwise_cons]
      constructor
      · intro a ha
        rcases List.mem_cons.1 ha with rfl | ha
        · exact hyx
        · exact le_trans (hl.1 a ha) hyx
      · exact hl

theorem pairwise_sortDescBy {α : Type} (key : α → Score) (l : List α) :
    (sortDescBy key l).Pairwise (fun a b => key b ≤ key a) := by
  induction l with
  | nil => simp [sortDescBy]
  | cons x t ih => exact pairwise_insertDescBy key x _ ih

theorem filter_insertDescBy {α : Type} (key : α → Score) (x : α) (l : List α) (v : Score) :
    (insertDescBy key x l).filter (fun a => key a == v) =
      if key x = v then x :: l.filter (fun a => key a == v)
      else l.filter (fun a => key a == v) := by
  induction l with
  | nil =>
    by_cases h : key x = v <;> simp [insertDescBy, List.filter_cons, h]
  | cons y t ih =>
    simp only [insertDescBy]
    by_cases h : key x < key y
    · simp only [h, if_true]
      by_cases hy : key y = v
      · have hx : ¬ key x = v := by
          intro hxv
          rw [hxv, hy] at h
          exact lt_irrefl v h
        simp [List.filter_cons, hy, hx, ih]
      · simp [List.filter_cons, hy, ih]
    · simp only [h, if_false]
      by_cases hx : key x = v <;> simp [List.filter_cons, hx]

theorem filter_sortDescBy {α : Type} (key : α → Score) (l : List α) (v : Score) :
    (sortDescBy key l).filter (fun a => key a == v) = l.filter (fun a => key a == v) := by
  induction l with
  | nil => simp [sortDescBy]
  | cons x t ih =>
    simp only [sortDescBy, filter_insertDescBy, List.filter]
    by_cases h : key x = v
    · simp [h, ih]
    · simp only [h, if_false, ih]
      have : (key x == v) = false := beq_eq_false_iff_ne.2 h
      simp [this]

theorem length_insertDescBy {α : Type} (key : α → Score) (x : α) (l : List α) :
    (insertDescBy key x l).length = l.length + 1 := by
  induction l with
  | nil => simp [insertDescBy]
  | cons y t ih =>
    simp only [insertDescBy]
    by_cases h : key x < key y <;> simp [h, ih]

theorem length_sortDescBy {α : Type} (key : α → Score) (l : List α) :
    (sortDescBy key l).length = l.length := by
  induction l with
  | nil => simp [sortDescBy]
  | cons x t ih => simp [sortDescBy, length_insertDescBy, ih]

/-! First-seen order: the order in which distinct keys enter an
insertion-ordered dict. -/

/-- Keys of l not already in seen, in order of first occurrence. -/
def firstSeen (seen : List String) : List String → List String
  | [] => []
  | c :: cs => if c ∈ seen then firstSeen seen cs else c :: firstSeen (seen ++ [c]) cs

theorem mem_firstSeen (a : String) :
    ∀ (l seen : List String), a ∈ firstSeen seen l ↔ a ∈ l ∧ a ∉ seen := by
  intro l
  induction l with
  | nil => simp [firstSeen]
  | cons c cs ih =>
    intro seen
    simp only [firstSeen]
    by_cases h : c ∈ seen
    · rw [if_pos h, ih seen]
      constructor
      · rintro ⟨ha, hs⟩
        exact ⟨List.mem_cons_of_mem c ha, hs⟩
      · rintro ⟨ha, hs⟩
        rcases List.mem_cons.1 ha with rfl | ha
        · exact absurd h hs
        · exact ⟨ha, hs⟩
    · rw [if_neg h]
      simp only [List.mem_cons, ih (seen ++ [c]), List.mem_append, List.mem_singleton]
      constructor
      · rintro (rfl | ⟨ha, hs⟩)
        · exact ⟨Or.inl rfl, h⟩
        · refine ⟨Or.inr ha, fun hmem => hs (Or.inl hmem)⟩
      · rintro ⟨rfl | ha, hs⟩
        · exact Or.inl rfl
        · by_cases hac : a = c
          · exact Or.inl hac
          · exact Or.inr ⟨ha, by simp [hs, hac]⟩

theorem nodup_firstSeen : ∀ (l seen : List String), (firstSeen seen l).Nodup := by
  intro l
  induction l with
  | nil => intro seen; simp [firstSeen]
  | cons c cs ih =>
    intro seen
    simp only [firstSeen]
    by_cases h : c ∈ seen
    · simp only [h, if_true]
      exact ih seen
    · simp only [h, if_false, List.nodup_cons]
      refine ⟨fun hmem => ?_, ih (seen ++ [c])⟩
      have := (mem_firstSeen c cs (seen ++ [c])).1 hmem
      exact this.2 (by simp)

theorem toFinset_firstSeen : ∀ (l seen : List String),
    (firstSeen seen l).toFinset = l.toFinset \ seen.toFinset := by
  intro l seen
  ext a
  simp [List.mem_toFinset, mem_firstSeen]

theorem length_firstSeen_nil (l : List String) :
    (firstSeen [] l).length = l.toFinset.card := by
  rw [← List.toFinset_card_of_nodup (nodup_firstSeen l [])]
  rw [toFinset_firstSeen]
  simp

/-- Generic key-tracking lemma for a left fold that performs, per entry,
insertion-ordered dict updates at the entry's key. -/
theorem foldl_keys {σ α : Type} (g : σ → α → σ) (keys : σ → List String) (ck : α → String)
    (hg : ∀ st e, keys (g st e) =
      if ck e ∈ keys st then keys st else keys st ++ [ck e]) :
    ∀ (ps : List α) (st : σ),
      keys (ps.foldl g st) = keys st ++ firstSeen (keys st) (ps.map ck) := by
  intro ps
  induction ps with
  | nil => intro st; simp [firstSeen]
  | cons e ps ih =>
    intro st
    simp only [List.foldl_cons, List.map_cons, firstSeen, ih (g st e), hg st e]
    by_cases h : ck e ∈ keys st
    · simp [h]
    · simp [h, List.append_assoc]

/-! String helpers modelling the Python string operations used by the
techniques (strip, lower, split, substring containment). They operate on
the character list underlying the String so that every recursion is
structural. -/

/-- Python str.strip(): drop whitespace from both ends. -/
def trimChars (cs : List Char) : List Char :=
  ((cs.dropWhile Char.isWhitespace).reverse.dropWhile Char.isWhitespace).reverse

/-- Python s.strip() on strings. -/
def strTrim (s : String) : String := ⟨trimChars s.data⟩

/-- Python s.lower() (ASCII-faithful; the labels and entities compared in
the source are ASCII). -/
def strToLower (s : String) : String := ⟨s.data.map Char.toLower⟩

/-- Python s.split(sep) for a one-character separator: keeps empty parts,
like str.split with an explicit separator. -/
def splitOnChar (c : Char) : List Char → List (List Char)
  | [] => [[]]
  | x :: xs =>
    match splitOnChar c xs with
    | [] => [[]]
    | h :: t => if x == c then [] :: h :: t else (x :: h) :: t

/-- Python s.split(chr(10)) on strings. -/
def strLines (s : String) : List String := (splitOnChar '\n' s.data).map (fun cs => ⟨cs⟩)

/-- Python s.split()[0]: first maximal whitespace-free run after leading
whitespace. -/
def firstToken (s : String) : String :=
  ⟨(s.data.dropWhile Char.isWhitespace).takeWhile (fun c => !c.isWhitespace)⟩

/-- Python substring containment pat in s on character lists. -/
def listContainsSub (pat : List Char) : List Char → Bool
  | [] => pat.isEmpty
  | c :: cs => pat.isPrefixOf (c :: cs) || listContainsSub pat cs

/-- Python pat in s for strings. -/
def strContainsSub (s pat : String) : Bool := listContainsSub pat.data s.data

/-! Reciprocal Rank Fusion: fusion.py, _reciprocal_rank_fusion. -/

/-- State of the three dicts built by the loop of _reciprocal_rank_fusion
(fusion.py lines 189-198): rrf_scores is a defaultdict(float), doc_map a
plain dict, original_scores a defaultdict(list). -/
structure RRFState where
  rrf_scores : List (String × Score)
  doc_map : List (String × Document)
  original_scores : List (String × List Score)

/-- Python rrf_scores[content] += x on the defaultdict(float). -/
def alistAddQ (m : List (String × Score)) (k : String) (x : Score) : List (String × Score) :=
  alistSet m k ((alistGet? m k).getD 0 + x)

/-- Python original_scores[content].append(x) on the defaultdict(list). -/
def alistPush (m : List (String × List Score)) (k : String) (x : Score) :
    List (String × List Score) :=
  alistSet m k ((alistGet? m k).getD [] ++ [x])

/-- Loop body of _reciprocal_rank_fusion for one (rank, (doc, score))
entry: rrf_scores[content] += 1/(k+rank); doc_map[content] = doc;
original_scores[content].append(score). -/
def rrfStep (k : Score) (st : RRFState) (p : ℕ × Document × Score) : RRFState :=
  let content := p.2.1.page_content
  { rrf_scores := alistAddQ st.rrf_scores content (1 / (k + (p.1 : Score))),
    doc_map := alistSet st.doc_map content p.2.1,
    original_scores := alistPush st.original_scores content p.2.2 }

/-- Both loops of _reciprocal_rank_fusion: over result lists, and inside
each list over enumerate(result_list, start=1). -/
def rrfState (all_results : List (List (Document × Score))) (k : Score) : RRFState :=
  all_results.foldl (fun st l => (l.enumFrom 1).foldl (rrfStep k) st) ⟨[], [], []⟩

/-- All (rank, (doc, score)) occurrences in traversal order: each input
list paired with 1-based ranks, then concatenated. -/
def rankedEntries (all_results : List (List (Document × Score))) :
    List (ℕ × Document × Score) :=
  (all_results.map (List.enumFrom 1)).flatten

/-- Embedding of fusion.py _reciprocal_rank_fusion (source defaults
k=60, top_k=5): build the three dicts, sort contents by fused score
descending (stable), truncate to top_k and attach the mapped document
and contributing scores. The getD defaults are never hit: every content
in rrf_scores is also a key of doc_map and original_scores. -/
def reciprocal_rank_fusion (all_results : List (List (Document × Score))) (k : Score)
    (top_k : ℕ) : List (Document × Score × List Score) :=
  let st := rrfState all_results k
  let sorted_docs := (sortDescBy (fun p => p.2) st.rrf_scores).take top_k
  sorted_docs.map (fun p =>
    ((alistGet? st.doc_map p.1).getD ⟨"", ""⟩, p.2, (alistGet? st.original_scores p.1).getD []))

/-- Embedding of fusion.py _generate_query_variations. The behaviour of
the awaited ainvoke_smart call is the gen argument: ok r is a returned
response text, error is a raised exception — the Python function has no
try/except, so an exception propagates. On a returned response it splits
lines, strips them, drops empties, keeps num_variations - 1 of them and
prepends the original query. -/
def generate_query_variations (query : String) (num_variations : ℕ)
    (gen : Except Unit String) : Except Unit (List String) :=
  match gen with
  | .error e => .error e
  | .ok response =>
    let variations := ((strLines (strTrim response)).map strTrim).filter (fun l => l != "")
    .ok ([query] ++ variations.take (num_variations - 1))

/-! Deduplication: subquery.py, _deduplicate_docs and the top-k selection
of subquery_rag (lines 96-97). -/

/-- Loop body of _deduplicate_docs: keep the entry with the strictly
greater score for an already-seen content, insert a new content at the
end (CPython dict order). -/
def dedupStep (seen : List (String × (Document × Score))) (e : Document × Score) :
    List (String × (Document × Score)) :=
  let content := e.1.page_content
  match alistGet? seen content with
  | none => alistSet seen content e
  | some prev => if e.2 > prev.2 then alistSet seen content e else seen

/-- Embedding of subquery.py _deduplicate_docs: fold the duplicates into
the seen_content dict, then sort the values by score descending. -/
def deduplicate_docs (docs : List (Document × Score)) : List (Document × Score) :=
  sortDescBy (fun x => x.2) ((docs.foldl dedupStep []).map (fun p => p.2))

/-- Dedup-and-select of subquery_rag (subquery.py lines 87 and 96-97):
deduplicate, sort by score descending, take the first top_k. -/
def subquerySelect (all_docs : List (Document × Score)) (top_k : ℕ) :
    List (Document × Score) :=
  (sortDescBy (fun x => x.2) (deduplicate_docs all_docs)).take top_k

/-! Entity graph: graph_rag.py. -/

/-- EntityGraph as built by _build_entity_graph: nodes is a Python set of
entity strings, edges the relationships list of co-occurrence pairs. -/
structure EntityGraph where
  nodes : Finset String
  edges : List (String × String)

/-- All ordered co-occurrence pairs of one document's entity list, as
produced by the nested loops for i, e1 in enumerate(entities) / for e2 in
entities[i+1:]. -/
def pairsOf : List String → List (String × String)
  | [] => []
  | e :: rest => rest.map (fun e2 => (e, e2)) ++ pairsOf rest

/-- Post-processing of _extract_entities on a returned response: strip,
split lines, strip each, keep lines longer than 2 characters, cap at
10. -/
def parseEntities (response : String) : List String :=
  (((strLines (strTrim response)).map strTrim).filter
    (fun l => l != "" && decide (2 < l.length))).take 10

/-- Loop body of _build_entity_graph for one sampled document: extract
entities (the generation call may raise: error case, which propagates —
the source has no try/except) and accumulate nodes and edges. -/
def buildStep (gen : String → Except Unit String) (g : EntityGraph) (d : Document × Score) :
    Except Unit EntityGraph :=
  match gen d.1.page_content with
  | .error e => .error e
  | .ok response =>
    let entities := parseEntities response
    .ok { nodes := g.nodes ∪ entities.toFinset, edges := g.edges ++ pairsOf entities }

/-- Embedding of graph_rag.py _build_entity_graph. gen gives the
behaviour of the awaited _extract_entities generation call per sampled
document content (ok r: returned text, parsed heuristically; error: the
call raised — there is no try/except, so the build aborts). Only the
first 5 documents are sampled (docs[:5]). -/
def build_entity_graph (docs : List (Document × Score))
    (gen : String → Except Unit String) : Except Unit EntityGraph :=
  (docs.take 5).foldlM (buildStep gen) ⟨∅, []⟩

/-- Accumulation of one entity list into the graph under construction
(the body of the loop when the generation call returns). -/
def buildStepPure (g : EntityGraph) (entities : List String) : EntityGraph :=
  { nodes := g.nodes ∪ entities.toFinset, edges := g.edges ++ pairsOf entities }

/-- Reference graph for the success case: the graph built from given
per-document entity lists (nodes: union; edges: within-document pairs). -/
def buildGraphPure (entityLists : List (List String)) : EntityGraph :=
  entityLists.foldl buildStepPure ⟨∅, []⟩

/-- One round of neighbor collection of _expand_entities: from every edge
with an endpoint in current_level, add the other endpoint. -/
def nextLevel (edges : List (String × String)) (current : Finset String) : Finset String :=
  ((edges.filter (fun e => decide (e.1 ∈ current))).map Prod.snd
    ++ (edges.filter (fun e => decide (e.2 ∈ current))).map Prod.fst).toFinset

/-- Loop of _expand_entities: hops rounds, each accumulating the next
level into expanded and moving current_level forward. -/
def expandLoop (edges : List (String × String)) (expanded current : Finset String) :
    ℕ → Finset String
  | 0 => expanded
  | h + 1 => expandLoop edges (expanded ∪ nextLevel edges current) (nextLevel edges current) h

/-- Embedding of graph_rag.py _expand_entities. -/
def expand_entities (seed_entities : List String) (g : EntityGraph) (hops : ℕ) :
    Finset String :=
  expandLoop g.edges seed_entities.toFinset seed_entities.toFinset hops

/-- Number of expanded entities appearing case-insensitively in the
content (the entity_matches sum of _filter_docs_by_entities). -/
def entityMatchCount (content : String) (entities : Finset String) : ℕ :=
  (entities.filter (fun e => strContainsSub (strToLower content) (strToLower e) = true)).card

/-- Scored docs list built by the loop of _filter_docs_by_entities:
combined score = original * (1 + matches * 0.1), in input order. -/
def scored_docs (docs : List (Document × Score)) (entities : Finset String) :
    List (Document × Score) :=
  docs.map (fun d =>
    (d.1, d.2 * (1 + (entityMatchCount d.1.page_content entities : Score) * (1 / 10))))

/-- Embedding of graph_rag.py _filter_docs_by_entities: combined score =
original * (1 + 0.1 * matches), sort descending (Python list.sort is
stable), truncate to top_k. -/
def filter_docs_by_entities (docs : List (Document × Score)) (entities : Finset String)
    (top_k : ℕ) : List (Document × Score) :=
  (sortDescBy (fun x => x.2) (scored_docs docs entities)).take top_k

/-! HyDE: hyde_rag.py, _generate_hypothesis. -/

/-- Embedding of hyde_rag.py _generate_hypothesis. gen is the behaviour
of the awaited ainvoke_smart call (no try/except in the source, so an
exception propagates). A returned hypothesis is stripped; if shorter
than 20 characters the original query is returned instead. -/
def generate_hypothesis (query : String) (gen : Except Unit String) : Except Unit String :=
  match gen with
  | .error e => .error e
  | .ok response =>
    let hypothesis := strTrim response
    if hypothesis.length < 20 then .ok query else .ok hypothesis

/-! Two-stage reranking: reranking_rag.py. -/

/-- Source entry of the reranked output: original candidate data plus
the stage-2 relevance score and the stable index into stage-1 results. -/
structure RerankedSource where
  content : String
  metadata : String
  original_score : Score
  rerank_score : Score
  rerank_index : ℕ
deriving DecidableEq, Repr

/-- Embedding of reranking_rag.py reranking_rag, instrumented with call
counters. cohere_api_key is Option String (None or a string; Python
treats None and the empty string as falsy). stage1 is the candidate
retrieval service (similarity_search_with_score), stage2 the Cohere
rerank service returning (index, relevance_score) results. The result
carries the number of stage-1 and stage-2 calls performed. The guard on
the credential is the first statement of the Python function, before any
client construction or network call. Indexing initial_docs[result.index]
uses a default document out of range (the service contract returns
indices into the passed list). -/
def reranking_rag (query : String) (top_k : ℕ) (cohere_api_key : Option String)
    (stage1 : String → ℕ → List (Document × Score))
    (stage2 : String → List String → ℕ → List (ℕ × Score)) :
    Except String (List RerankedSource) × ℕ × ℕ :=
  if cohere_api_key = none ∨ cohere_api_key = some "" then
    (.error "cohere_api_key is required for reranking", 0, 0)
  else
    let initial_top_k := top_k * 4
    let final_top_n := top_k
    let initial_docs := stage1 query initial_top_k
    let documents_to_rerank := initial_docs.map (fun d => d.1.page_content)
    let rerank_results := stage2 query documents_to_rerank final_top_n
    let reranked_sources := rerank_results.map (fun r =>
      let entry := (initial_docs.get? r.1).getD (⟨"", ""⟩, 0)
      { content := entry.1.page_content, metadata := entry.1.metadata,
        original_score := entry.2, rerank_score := r.2, rerank_index := r.1 })
    (.ok reranked_sources, 1, 1)

/-! Adaptive router: adaptive/orchestrator.py and adaptive/prompts.py. -/

/-- Closed category set of adaptive/prompts.py VALID_CATEGORIES. -/
def VALID_CATEGORIES : List String := ["simple", "complex", "abstract", "precision"]

/-- Static category-to-technique table of adaptive/prompts.py. -/
def CATEGORY_TO_TECHNIQUE : List (String × String) :=
  [("simple", "baseline"), ("complex", "subquery"), ("abstract", "hyde"),
   ("precision", "reranking")]

/-- Default fallback technique of adaptive/prompts.py. -/
def DEFAULT_TECHNIQUE : String := "baseline"

/-- Normalization of the raw classifier response in classify_query_node:
strip, lowercase, first whitespace token (or the literal simple when the
stripped response is empty), then keep only alphabetic characters. -/
def normalizeClassification (raw : String) : String :=
  let c := strToLower (strTrim raw)
  let c := if c = "" then "simple" else firstToken c
  ⟨c.data.filter Char.isAlpha⟩

/-- Validation step of classify_query_node: accept a valid category,
otherwise scan for a valid category occurring as a substring of the
normalized response, otherwise fall back to simple. -/
def classifyValidated (raw : String) : String :=
  let c := normalizeClassification raw
  if c ∈ VALID_CATEGORIES then c
  else
    match VALID_CATEGORIES.find? (fun cat => strContainsSub c cat) with
    | some cat => cat
    | none => "simple"

/-- Embedding of classify_query_node (orchestrator.py lines 51-88):
returns (query_type, confidence). gen is the behaviour of the classifier
call; the surrounding try/except turns a raised exception into the
(simple, 0.5) fallback. -/
def classify_query_node (gen : Except Unit String) : String × Score :=
  match gen with
  | .error _ => ("simple", 1 / 2)
  | .ok response => (classifyValidated response, 9 / 10)

/-- Embedding of select_technique_node: CATEGORY_TO_TECHNIQUE.get with
DEFAULT_TECHNIQUE as the dict-get default. -/
def selectTechnique (query_type : String) : String :=
  (alistGet? CATEGORY_TO_TECHNIQUE query_type).getD DEFAULT_TECHNIQUE

/-! Fold lemmas about the dicts built by _reciprocal_rank_fusion. -/

theorem rrfState_eq (all_results : List (List (Document × Score))) (k : Score) :
    rrfState all_results k = (rankedEntries all_results).foldl (rrfStep k) ⟨[], [], []⟩ := by
  rw [rrfState, rankedEntries, List.foldl_flatten, List.foldl_map]

theorem rrf_score_foldl (k : Score) :
    ∀ (ps : List (ℕ × Document × Score)) (st : RRFState) (c : String),
      (alistGet? ((ps.foldl (rrfStep k) st).rrf_scores) c).getD 0
        = (alistGet? st.rrf_scores c).getD 0
          + ((ps.filter (fun p => p.2.1.page_content == c)).map
              (fun p => 1 / (k + (p.1 : Score)))).sum := by
  intro ps
  induction ps with
  | nil => intro st c; simp
  | cons e ps ih =>
    intro st c
    rw [List.foldl_cons, ih]
    have hstep : (alistGet? ((rrfStep k st e).rrf_scores) c).getD 0
        = if e.2.1.page_content = c
          then (alistGet? st.rrf_scores c).getD 0 + 1 / (k + (e.1 : Score))
          else (alistGet? st.rrf_scores c).getD 0 := by
      simp only [rrfStep, alistAddQ, alistGet?_alistSet]
      by_cases h : e.2.1.page_content = c <;> simp [h]
    by_cases h : e.2.1.page_content = c
    · rw [hstep, if_pos h, List.filter_cons, if_pos (by simp [h]), List.map_cons,
        List.sum_cons]
      ring
    · rw [hstep, if_neg h, List.filter_cons, if_neg (by simp [h])]

/-- Keep the left option when present, otherwise the right one (the
value of a dict key after later writes may override earlier ones; used
with the filtered occurrence list reversed into getLast?). -/
def optionOrKeep {α : Type} : Option α → Option α → Option α
  | some a, _ => some a
  | none, b => b

theorem optionOrKeep_assoc {α : Type} (a b c : Option α) :
    optionOrKeep (optionOrKeep a b) c = optionOrKeep a (optionOrKeep b c) := by
  cases a <;> simp [optionOrKeep]

theorem getLast?_cons_eq {α : Type} (x : α) (l : List α) :
    (x :: l).getLast? = optionOrKeep l.getLast? (some x) := by
  induction l generalizing x with
  | nil => simp [optionOrKeep]
  | cons y t ih =>
    rw [List.getLast?_cons_cons, ih y]
    cases h : t.getLast? <;> simp [optionOrKeep, ih, h]

theorem rrf_docmap_foldl (k : Score) :
    ∀ (ps : List (ℕ × Document × Score)) (st : RRFState) (c : String),
      alistGet? ((ps.foldl (rrfStep k) st).doc_map) c
        = optionOrKeep
            (((ps.filter (fun p => p.2.1.page_content == c)).map (fun p => p.2.1)).getLast?)
            (alistGet? st.doc_map c) := by
  intro ps
  induction ps with
  | nil => intro st c; simp [optionOrKeep]
  | cons e ps ih =>
    intro st c
    rw [List.foldl_cons, ih]
    have hstep : alistGet? ((rrfStep k st e).doc_map) c
        = if e.2.1.page_content = c then some e.2.1 else alistGet? st.doc_map c := by
      simp only [rrfStep, alistGet?_alistSet]
    by_cases h : e.2.1.page_content = c
    · rw [hstep, if_pos h, List.filter_cons, if_pos (by simp [h]), List.map_cons,
        getLast?_cons_eq, optionOrKeep_assoc]
      rcases alistGet? st.doc_map c with _ | d <;> simp [optionOrKeep]
    · rw [hstep, if_neg h, List.filter_cons, if_neg (by simp [h])]

theorem rrf_origs_foldl (k : Score) :
    ∀ (ps : List (ℕ × Document × Score)) (st : RRFState) (c : String),
      (alistGet? ((ps.foldl (rrfStep k) st).original_scores) c).getD []
        = (alistGet? st.original_scores c).getD []
          ++ (ps.filter (fun p => p.2.1.page_content == c)).map (fun p => p.2.2) := by
  intro ps
  induction ps with
  | nil => intro st c; simp
  | cons e ps ih =>
    intro st c
    rw [List.foldl_cons, ih]
    have hstep : (alistGet? ((rrfStep k st e).original_scores) c).getD []
        = if e.2.1.page_content = c
          then (alistGet? st.original_scores c).getD [] ++ [e.2.2]
          else (alistGet? st.original_scores c).getD [] := by
      simp only [rrfStep, alistPush, alistGet?_alistSet]
      by_cases h : e.2.1.page_content = c <;> simp [h]
    by_cases h : e.2.1.page_content = c
    · rw [hstep, if_pos h, List.filter_cons, if_pos (by simp [h]), List.map_cons,
        List.append_assoc, List.singleton_append]
    · rw [hstep, if_neg h, List.filter_cons, if_neg (by simp [h])]

/-! Concrete documents for the worked examples of the spec. -/

def docA : Document := ⟨"A", ""⟩

def docB : Document := ⟨"B", ""⟩

def docC : Document := ⟨"C", ""⟩

/-- Worked RRF input of the spec: list1 = [A, B], list2 = [B, C], with
arbitrary concrete similarity scores. -/
def rrfExampleLists : List (List (Document × Score)) :=
  [[(docA, 9 / 10), (docB, 8 / 10)], [(docB, 7 / 10), (docC, 6 / 10)]]

/-- C1: Reciprocal Rank Fusion computes each candidate's fused score as
the sum of 1/(k + r) over every occurrence of that candidate at 1-based
rank r in any input list (the source default of the constant is k = 60);
on the worked example list1 = [A, B], list2 = [B, C] with k = 60 the
fused scores are A = 1/61, B = 1/62 + 1/61, C = 1/62 and the output
order is [B, A, C]. -/
theorem C1_rrf_score_formula_and_example :
    (∀ (all_results : List (List (Document × Score))) (k : Score) (c : String),
      (alistGet? (rrfState all_results k).rrf_scores c).getD 0
        = (((rankedEntries all_results).filter (fun p => p.2.1.page_content == c)).map
            (fun p => 1 / (k + (p.1 : Score)))).sum)
    ∧ (reciprocal_rank_fusion rrfExampleLists 60 5).map (fun t => (t.1.page_content, t.2.1))
        = [("B", 1 / 62 + 1 / 61), ("A", 1 / 61), ("C", 1 / 62)] := by
  constructor
  · intro all_results k c
    rw [rrfState_eq, rrf_score_foldl]
    simp [alistGet?]
  · simp [reciprocal_rank_fusion, rrfState, rrfStep, alistAddQ, alistPush, alistSet, alistGet?,
      sortDescBy, insertDescBy, rrfExampleLists, docA, docB, docC, List.enumFrom]
    norm_num [insertDescBy]
    simp

/-! Key-order lemmas: the dict keys are in first-seen order. -/

theorem rrf_keys (k : Score) (all_results : List (List (Document × Score))) :
    (rrfState all_results k).rrf_scores.map Prod.fst
      = firstSeen [] ((rankedEntries all_results).map (fun p => p.2.1.page_content)) := by
  rw [rrfState_eq]
  have hg : ∀ (st : RRFState) (e : ℕ × Document × Score),
      (rrfStep k st e).rrf_scores.map Prod.fst
        = if e.2.1.page_content ∈ st.rrf_scores.map Prod.fst
          then st.rrf_scores.map Prod.fst
          else st.rrf_scores.map Prod.fst ++ [e.2.1.page_content] := by
    intro st e
    simp only [rrfStep, alistAddQ]
    exact keys_alistSet _ _ _
  have h := foldl_keys (rrfStep k) (fun st => st.rrf_scores.map Prod.fst)
    (fun p => p.2.1.page_content) hg (rankedEntries all_results) ⟨[], [], []⟩
  simpa using h

theorem dedup_keys (docs : List (Document × Score)) :
    (docs.foldl dedupStep []).map Prod.fst
      = firstSeen [] (docs.map (fun d => d.1.page_content)) := by
  have hg : ∀ (seen : List (String × (Document × Score))) (e : Document × Score),
      (dedupStep seen e).map Prod.fst
        = if e.1.page_content ∈ seen.map Prod.fst then seen.map Prod.fst
          else seen.map Prod.fst ++ [e.1.page_content] := by
    intro seen e
    cases hprev : alistGet? seen e.1.page_content with
    | none =>
      simp only [dedupStep, hprev]
      rw [keys_alistSet]
    | some prev =>
      have hmem : e.1.page_content ∈ seen.map Prod.fst := by
        rw [← alistGet?_isSome_iff_mem_keys]
        simp [hprev]
      simp only [dedupStep, hprev]
      by_cases hgt : e.2 > prev.2
      · rw [if_pos hgt, keys_alistSet]
      · rw [if_neg hgt]
        simp [hmem]
  have h := foldl_keys dedupStep (fun seen => seen.map Prod.fst)
    (fun d => d.1.page_content) hg docs []
  simpa using h

/-- C2: every ranked candidate list produced by fusion, by
dedup-and-select, and by graph entity filtering is sorted by its fused
or combined score in descending order, its length never exceeds the
requested top_k, ties are broken by first-seen order (each tie class of
the stably sorted list equals the tie class of the pre-sort list, and
the pre-sort dict orders are the first-seen orders of the input
encounter sequence). -/
theorem C2_ranked_lists_sorted_bounded_stable :
    (∀ (all_results : List (List (Document × Score))) (k : Score) (top_k : ℕ),
      (reciprocal_rank_fusion all_results k top_k).Pairwise (fun a b => b.2.1 ≤ a.2.1)
      ∧ (reciprocal_rank_fusion all_results k top_k).length ≤ top_k
      ∧ (∀ v : Score,
          (sortDescBy (fun p => p.2) (rrfState all_results k).rrf_scores).filter
              (fun p => p.2 == v)
            = (rrfState all_results k).rrf_scores.filter (fun p => p.2 == v))
      ∧ (rrfState all_results k).rrf_scores.map Prod.fst
          = firstSeen [] ((rankedEntries all_results).map (fun p => p.2.1.page_content)))
    ∧ (∀ (docs : List (Document × Score)) (top_k : ℕ),
      (subquerySelect docs top_k).Pairwise (fun a b => b.2 ≤ a.2)
      ∧ (subquerySelect docs top_k).length ≤ top_k
      ∧ (∀ v : Score,
          (sortDescBy (fun x => x.2) (deduplicate_docs docs)).filter (fun p => p.2 == v)
            = ((docs.foldl dedupStep []).map (fun p => p.2)).filter (fun p => p.2 == v))
      ∧ (docs.foldl dedupStep []).map Prod.fst
          = firstSeen [] (docs.map (fun d => d.1.page_content)))
    ∧ (∀ (docs : List (Document × Score)) (entities : Finset String) (top_k : ℕ),
      (filter_docs_by_entities docs entities top_k).Pairwise (fun a b => b.2 ≤ a.2)
      ∧ (filter_docs_by_entities docs entities top_k).length ≤ top_k
      ∧ (∀ v : Score,
          (sortDescBy (fun x => x.2) (scored_docs docs entities)).filter (fun p => p.2 == v)
            = (scored_docs docs entities).filter (fun p => p.2 == v))) := by
  refine ⟨?_, ?_, ?_⟩
  · intro all_results k top_k
    refine ⟨?_, ?_,
      fun v => filter_sortDescBy (fun p : String × Score => p.2)
        ((rrfState all_results k).rrf_scores) v,
      rrf_keys k all_results⟩
    · simp only [reciprocal_rank_fusion]
      rw [List.pairwise_map]
      exact List.Pairwise.sublist (List.take_sublist _ _)
        (pairwise_sortDescBy (fun p : String × Score => p.2) _)
    · simp only [reciprocal_rank_fusion, List.length_map, List.length_take]
      exact min_le_left _ _
  · intro docs top_k
    refine ⟨?_, ?_, fun v => ?_, dedup_keys docs⟩
    · exact List.Pairwise.sublist (List.take_sublist _ _)
        (pairwise_sortDescBy (fun x : Document × Score => x.2) _)
    · simp only [subquerySelect, List.length_take, length_sortDescBy]
      exact min_le_left _ _
    · have h1 := filter_sortDescBy (fun x : Document × Score => x.2)
        ((docs.foldl dedupStep []).map (fun p => p.2)) v
      have h2 := filter_sortDescBy (fun x : Document × Score => x.2)
        (deduplicate_docs docs) v
      exact h2.trans (by simp only [deduplicate_docs]; exact h1)
  · intro docs entities top_k
    refine ⟨?_, ?_,
      fun v => filter_sortDescBy (fun x : Document × Score => x.2)
        (scored_docs docs entities) v⟩
    · exact List.Pairwise.sublist (List.take_sublist _ _)
        (pairwise_sortDescBy (fun x : Document × Score => x.2) _)
    · simp only [filter_docs_by_entities, List.length_take, length_sortDescBy]
      exact min_le_left _ _

/-! Maximum of a score list, and the dedup max-retention lemma. -/

/-- Maximum of a list of scores, none for the empty list. -/
def listMax? : List Score → Option Score
  | [] => none
  | x :: xs =>
    match listMax? xs with
    | none => some x
    | some m => some (max x m)

/-- Merge two optional maxima. -/
def maxMerge : Option Score → Option Score → Option Score
  | none, b => b
  | some a, none => some a
  | some a, some b => some (max a b)

theorem listMax?_cons (x : Score) (xs : List Score) :
    listMax? (x :: xs) = maxMerge (some x) (listMax? xs) := by
  cases h : listMax? xs <;> simp [listMax?, maxMerge, h]

theorem maxMerge_assoc (a b c : Option Score) :
    maxMerge (maxMerge a b) c = maxMerge a (maxMerge b c) := by
  cases a <;> cases b <;> cases c <;> simp [maxMerge, max_assoc]

theorem dedup_score_foldl :
    ∀ (ds : List (Document × Score)) (seen : List (String × (Document × Score)))
      (c : String),
      (alistGet? (ds.foldl dedupStep seen) c).map (fun p => p.2)
        = maxMerge ((alistGet? seen c).map (fun p => p.2))
            (listMax? ((ds.filter (fun d => d.1.page_content == c)).map (fun d => d.2))) := by
  intro ds
  induction ds with
  | nil =>
    intro seen c
    simp only [List.foldl_nil, List.filter_nil, List.map_nil, listMax?]
    cases alistGet? seen c <;> simp [maxMerge]
  | cons d ds ih =>
    intro seen c
    rw [List.foldl_cons, ih]
    have hstep : (alistGet? (dedupStep seen d) c).map (fun p => p.2)
        = if d.1.page_content = c
          then maxMerge ((alistGet? seen c).map (fun p => p.2)) (some d.2)
          else (alistGet? seen c).map (fun p => p.2) := by
      cases hprev : alistGet? seen d.1.page_content with
      | none =>
        simp only [dedupStep, hprev, alistGet?_alistSet]
        by_cases h : d.1.page_content = c
        · subst h
          simp [hprev, maxMerge]
        · simp [h]
      | some prev =>
        simp only [dedupStep, hprev]
        by_cases hgt : d.2 > prev.2
        · rw [if_pos hgt]
          simp only [alistGet?_alistSet]
          by_cases h : d.1.page_content = c
          · subst h
            simp [hprev, maxMerge, max_eq_right (le_of_lt hgt)]
          · simp [h]
        · rw [if_neg hgt]
          by_cases h : d.1.page_content = c
          · subst h
            simp [hprev, maxMerge, max_eq_left (not_lt.1 hgt)]
          · simp [h]
    by_cases h : d.1.page_content = c
    · rw [hstep, if_pos h, List.filter_cons, if_pos (by simp [h]), List.map_cons,
        listMax?_cons]
      exact maxMerge_assoc _ _ _
    · rw [hstep, if_neg h, List.filter_cons, if_neg (by simp [h])]

theorem dedup_length (docs : List (Document × Score)) :
    (docs.foldl dedupStep []).length
      = (docs.map (fun d => d.1.page_content)).toFinset.card := by
  have h1 : (docs.foldl dedupStep []).length
      = ((docs.foldl dedupStep []).map Prod.fst).length := (List.length_map _ _).symm
  rw [h1, dedup_keys, length_firstSeen_nil]

def docD1 : Document := ⟨"D1", ""⟩

def docD2 : Document := ⟨"D2", ""⟩

/-- C3: deduplication groups candidates by exact content equality and
keeps, for each content, the maximum score of the group; the
dedup-and-select output is sorted descending and has length exactly
min(top_k, number of distinct contents); on the worked example
[(D1, 0.7), (D2, 0.5), (D1, 0.9)] with top_k = 2 the output is exactly
[(D1, 0.9), (D2, 0.5)]. -/
theorem C3_dedup_max_and_min_length :
    (∀ (docs : List (Document × Score)) (c : String),
      (alistGet? (docs.foldl dedupStep []) c).map (fun p => p.2)
        = listMax? ((docs.filter (fun d => d.1.page_content == c)).map (fun d => d.2)))
    ∧ (∀ (docs : List (Document × Score)) (top_k : ℕ),
      (subquerySelect docs top_k).length
        = min top_k ((docs.map (fun d => d.1.page_content)).toFinset.card))
    ∧ subquerySelect [(docD1, 7 / 10), (docD2, 1 / 2), (docD1, 9 / 10)] 2
        = [(docD1, 9 / 10), (docD2, 1 / 2)] := by
  refine ⟨?_, ?_, ?_⟩
  · intro docs c
    rw [dedup_score_foldl docs [] c]
    simp [alistGet?, maxMerge]
  · intro docs top_k
    simp only [subquerySelect, List.length_take, length_sortDescBy, deduplicate_docs,
      List.length_map]
    rw [dedup_length docs]
  · simp [subquerySelect, deduplicate_docs, dedupStep, alistSet, alistGet?, sortDescBy,
      insertDescBy, docD1, docD2]
    norm_num [sortDescBy, insertDescBy]

/-- C4 counterexample: there is a behaviour of the external generation
call — raising — for which query expansion and hypothesis generation do
not fall back to the original query but propagate the exception (neither
function has a try/except around the awaited call), refuting the claim
that for every behaviour of the call they return a non-empty list and
never raise. -/
theorem C4_counterexample_raising_call_propagates :
    generate_query_variations "What is RAG?" 3 (.error ()) = .error ()
    ∧ generate_hypothesis "What is RAG?" (.error ()) = .error () :=
  ⟨rfl, rfl⟩

/-- C4 amended: when the external generation call returns text, query
expansion returns a non-empty list headed by the original query (exactly
the singleton original query when the parsed variation list is empty),
and hypothesis generation returns the original query when the trimmed
output is shorter than 20 characters (the trimmed output otherwise); but
when the call raises, the exception propagates out of both functions. -/
theorem C4_expansion_fallback_amended :
    (∀ (query : String) (n : ℕ) (r : String),
      ∃ l, generate_query_variations query n (.ok r) = .ok l
        ∧ l ≠ [] ∧ l.head? = some query)
    ∧ (∀ (query : String) (n : ℕ) (r : String),
        ((strLines (strTrim r)).map strTrim).filter (fun l => l != "") = [] →
        generate_query_variations query n (.ok r) = .ok [query])
    ∧ (∀ (query : String) (n : ℕ),
        generate_query_variations query n (.error ()) = .error ())
    ∧ (∀ (query r : String), (strTrim r).length < 20 →
        generate_hypothesis query (.ok r) = .ok query)
    ∧ (∀ (query r : String), ¬ (strTrim r).length < 20 →
        generate_hypothesis query (.ok r) = .ok (strTrim r))
    ∧ (∀ (query : String), generate_hypothesis query (.error ()) = .error ()) := by
  refine ⟨?_, ?_, fun query n => rfl, ?_, ?_, fun query => rfl⟩
  · intro query n r
    refine ⟨_, rfl, ?_, ?_⟩ <;> simp [generate_query_variations]
  · intro query n r h
    simp [generate_query_variations, h]
  · intro query r h
    simp [generate_hypothesis, h]
  · intro query r h
    simp [generate_hypothesis, h]

/-- C4 witness: the amended theorem applied at concrete inputs (empty
generation output for expansion; a 5-character hypothesis). -/
theorem C4_expansion_fallback_amended_witness :
    generate_query_variations "q" 3 (.ok "") = .ok ["q"]
    ∧ generate_hypothesis "q" (.ok "short") = .ok "q" :=
  ⟨C4_expansion_fallback_amended.2.1 "q" 3 "" (by decide),
   C4_expansion_fallback_amended.2.2.2.1 "q" "short" (by decide)⟩

/-- C5: invoking the two-stage reranking orchestrator without a
reranking credential (cohere_api_key None or empty) yields the
configuration error raised by the first statement of the function, with
zero calls to the stage-1 retrieval service and zero to the stage-2
reranking service, for every query, top_k and service behaviour. -/
theorem C5_reranking_fail_fast :
    ∀ (query : String) (top_k : ℕ) (key : Option String)
      (stage1 : String → ℕ → List (Document × Score))
      (stage2 : String → List String → ℕ → List (ℕ × Score)),
      key = none ∨ key = some "" →
      reranking_rag query top_k key stage1 stage2
        = (.error "cohere_api_key is required for reranking", 0, 0) := by
  intro query top_k key stage1 stage2 h
  simp only [reranking_rag]
  rw [if_pos h]

/-- C5 witness: the fail-fast theorem at a concrete missing credential
and concrete services. -/
theorem C5_reranking_fail_fast_witness :
    reranking_rag "q" 5 none (fun _ _ => []) (fun _ _ _ => [])
      = (.error "cohere_api_key is required for reranking", 0, 0) :=
  C5_reranking_fail_fast "q" 5 none (fun _ _ => []) (fun _ _ _ => []) (Or.inl rfl)

/-! Graph expansion lemmas. -/

theorem expandLoop_superset (edges : List (String × String)) :
    ∀ (h : ℕ) (expanded current : Finset String),
      expanded ⊆ expandLoop edges expanded current h := by
  intro h
  induction h with
  | zero => intro e c; exact Finset.Subset.refl e
  | succ n ih =>
    intro e c
    exact Finset.Subset.trans Finset.subset_union_left
      (ih (e ∪ nextLevel edges c) (nextLevel edges c))

theorem expandLoop_mono_hops (edges : List (String × String)) :
    ∀ (h : ℕ) (expanded current : Finset String),
      expandLoop edges expanded current h ⊆ expandLoop edges expanded current (h + 1) := by
  intro h
  induction h with
  | zero =>
    intro e c
    show e ⊆ expandLoop edges (e ∪ nextLevel edges c) (nextLevel edges c) 0
    exact Finset.subset_union_left
  | succ n ih =>
    intro e c
    exact ih (e ∪ nextLevel edges c) (nextLevel edges c)

/-- Worked entity graph of the spec, with edges (Python, Guido) and
(Guido, 1991). -/
def exampleGraph : EntityGraph :=
  ⟨{"Python", "Guido", "1991"}, [("Python", "Guido"), ("Guido", "1991")]⟩

/-- C6: entity graph expansion with hop count H performs H rounds of
breadth-first neighbor expansion; H = 0 returns exactly the seed set
unchanged, and on the worked graph with edges (Python, Guido) and
(Guido, 1991) and seed Python, 1 hop gives Python and Guido, 2 hops
give Python, Guido and 1991. -/
theorem C6_expand_entities_hops_and_example :
    (∀ (seed : List String) (g : EntityGraph), expand_entities seed g 0 = seed.toFinset)
    ∧ expand_entities ["Python"] exampleGraph 1 = {"Python", "Guido"}
    ∧ expand_entities ["Python"] exampleGraph 2 = {"Python", "Guido", "1991"} := by
  refine ⟨fun seed g => rfl, ?_, ?_⟩ <;> decide

/-- C10: for every entity graph, seed set and hop count H, the expansion
result contains the seed set, and the result for H hops is contained in
the result for H + 1 hops. -/
theorem C10_expand_superset_and_monotone :
    ∀ (g : EntityGraph) (seed : List String) (H : ℕ),
      seed.toFinset ⊆ expand_entities seed g H
      ∧ expand_entities seed g H ⊆ expand_entities seed g (H + 1) := by
  intro g seed H
  exact ⟨expandLoop_superset g.edges H seed.toFinset seed.toFinset,
    expandLoop_mono_hops g.edges H seed.toFinset seed.toFinset⟩

/-! Builder fold lemmas for the entity graph. -/

theorem buildFold_ok (f : String → String) :
    ∀ (l : List (Document × Score)) (g0 : EntityGraph),
      l.foldlM (buildStep (fun s => .ok (f s))) g0
        = .ok ((l.map (fun d => parseEntities (f d.1.page_content))).foldl buildStepPure g0) := by
  intro l
  induction l with
  | nil => intro g0; rfl
  | cons d t ih =>
    intro g0
    rw [List.foldlM_cons, List.map_cons, List.foldl_cons]
    show (t.foldlM (buildStep (fun s => .ok (f s)))
      (buildStepPure g0 (parseEntities (f d.1.page_content)))) = _
    exact ih _

theorem buildFold_error (gen : String → Except Unit String) :
    ∀ (l : List (Document × Score)) (g0 : EntityGraph),
      (∃ d ∈ l, gen d.1.page_content = .error ()) →
      l.foldlM (buildStep gen) g0 = .error () := by
  intro l
  induction l with
  | nil =>
    intro g0 h
    obtain ⟨d, hd, _⟩ := h
    exact absurd hd (List.not_mem_nil d)
  | cons d t ih =>
    intro g0 h
    rw [List.foldlM_cons]
    cases hd : gen d.1.page_content with
    | error e =>
      cases e
      rw [show buildStep gen g0 d = Except.error () from by simp [buildStep, hd]]
      rfl
    | ok r =>
      have hrest : ∃ x ∈ t, gen x.1.page_content = .error () := by
        obtain ⟨x, hx, hxe⟩ := h
        rcases List.mem_cons.1 hx with rfl | hx
        · rw [hd] at hxe
          exact absurd hxe (by simp)
        · exact ⟨x, hx, hxe⟩
      simp only [buildStep, hd]
      exact ih _ hrest

/-- C7 counterexample: a raising extraction call for one sampled
document aborts the whole build (the error propagates out of
_build_entity_graph), refuting the claim that for every behaviour of the
per-document extraction calls the builder returns a graph without
raising. -/
theorem C7_counterexample_raising_extraction_aborts :
    build_entity_graph [(⟨"doc one", ""⟩, 1)] (fun _ => .error ()) = .error () := rfl

/-- C7 amended: when every sampled extraction call returns text — even
unparseable text, since the heuristic parser just yields a (possibly
empty) entity list — the builder returns, without raising, the graph
accumulated from the parsed per-document entity lists of the sample
(at most 5 documents); but when some sampled extraction call raises, the
build aborts with that error. -/
theorem C7_build_graph_amended :
    (∀ (docs : List (Document × Score)) (f : String → String),
      build_entity_graph docs (fun s => .ok (f s))
        = .ok (buildGraphPure ((docs.take 5).map (fun d => parseEntities (f d.1.page_content)))))
    ∧ (∀ (docs : List (Document × Score)) (gen : String → Except Unit String),
        (∃ d ∈ docs.take 5, gen d.1.page_content = .error ()) →
        build_entity_graph docs gen = .error ()) := by
  constructor
  · intro docs f
    exact buildFold_ok f (docs.take 5) ⟨∅, []⟩
  · intro docs gen h
    exact buildFold_error gen (docs.take 5) ⟨∅, []⟩ h

/-- C7 witness: the amended theorem's abort case at a concrete input
where the second sampled document's extraction call raises. -/
theorem C7_build_graph_amended_witness :
    build_entity_graph [(⟨"good doc", ""⟩, 1), (⟨"bad doc", ""⟩, 1)]
        (fun s => if s = "bad doc" then .error () else .ok "Python") = .error () :=
  C7_build_graph_amended.2 _ _ ⟨(⟨"bad doc", ""⟩, 1), by simp, rfl⟩

theorem optionOrKeep_none_right {α : Type} (a : Option α) : optionOrKeep a none = a := by
  cases a <;> rfl

def docX1 : Document := ⟨"X", "meta one"⟩

def docX2 : Document := ⟨"X", "meta two"⟩

/-- C8 counterexample: two input lists containing the same content with
different metadata; the fused candidate keeps the Document of the second
(last) occurrence, not the first — doc_map[content] is overwritten on
every occurrence — refuting the first-occurrence part of the claim. -/
theorem C8_counterexample_metadata_from_last_occurrence :
    (reciprocal_rank_fusion [[(docX1, 1)], [(docX2, 1)]] 60 5).map (fun t => t.1)
        = [docX2]
    ∧ docX2 ≠ docX1 := by
  constructor
  · simp [reciprocal_rank_fusion, rrfState, rrfStep, alistAddQ, alistPush, alistSet,
      alistGet?, sortDescBy, insertDescBy, docX1, docX2, List.enumFrom]
  · decide

/-- C8 amended: in rank fusion, candidate identity is exact content
equality; the Document kept for each fused candidate is the one from
that candidate's last occurrence across the input lists (every
occurrence overwrites doc_map); and all contributing per-list scores
are retained, in encounter order. -/
theorem C8_fusion_identity_and_retention_amended :
    ∀ (all_results : List (List (Document × Score))) (k : Score) (c : String),
      alistGet? (rrfState all_results k).doc_map c
        = (((rankedEntries all_results).filter (fun p => p.2.1.page_content == c)).map
            (fun p => p.2.1)).getLast?
      ∧ (alistGet? (rrfState all_results k).original_scores c).getD []
        = ((rankedEntries all_results).filter (fun p => p.2.1.page_content == c)).map
            (fun p => p.2.2) := by
  intro all_results k c
  rw [rrfState_eq]
  constructor
  · rw [rrf_docmap_foldl]
    show optionOrKeep _ (alistGet? [] c) = _
    rw [show alistGet? ([] : List (String × Document)) c = none from rfl]
    exact optionOrKeep_none_right _
  · rw [rrf_origs_foldl]
    show (alistGet? [] c).getD [] ++ _ = _
    rw [show alistGet? ([] : List (String × List Score)) c = none from rfl]
    simp

/-- C9: for every raw classifier response whose normalization (trim,
lowercase, first token, strip non-alphabetic characters) is not in the
closed category set and contains no valid label as a substring, and
likewise when the classification call raises, the router resolves the
category to the fixed default simple, and the selected technique is the
table entry of the default category, baseline. -/
theorem C9_router_fallback_default :
    ∀ (raw : String),
      normalizeClassification raw ∉ VALID_CATEGORIES →
      (∀ cat ∈ VALID_CATEGORIES, strContainsSub (normalizeClassification raw) cat = false) →
      (classify_query_node (.ok raw)).1 = "simple"
      ∧ (classify_query_node (.error ())).1 = "simple"
      ∧ selectTechnique (classify_query_node (.ok raw)).1 = "baseline"
      ∧ selectTechnique "simple" = "baseline" := by
  intro raw hnv hnsub
  have hfind : VALID_CATEGORIES.find?
      (fun cat => strContainsSub (normalizeClassification raw) cat) = none := by
    apply List.find?_eq_none.2
    intro cat hc
    simp [hnsub cat hc]
  have hcat : classifyValidated raw = "simple" := by
    simp only [classifyValidated]
    rw [if_neg hnv, hfind]
  refine ⟨hcat, rfl, ?_, rfl⟩
  show selectTechnique (classifyValidated raw) = "baseline"
  rw [hcat]
  rfl

/-- C9 witness: the router fallback theorem at the concrete invalid
classifier response banana. -/
theorem C9_router_fallback_default_witness :
    (classify_query_node (.ok "banana")).1 = "simple"
    ∧ selectTechnique (classify_query_node (.ok "banana")).1 = "baseline" := by
  have h := C9_router_fallback_default "banana" (by decide) (by decide)
  exact ⟨h.1, h.2.2.1⟩

end RagLab
